import Mathlib

/-!
Shallow embedding of the vaultify-backend core: the vault access evaluation
and sharing mutations (internal/core/secret_service.go and
internal/core/vault_service.go) and the symmetric crypto codec
(internal/crypto/crypto.go), together with proofs of the specified
properties.
-/

namespace Vaultify

/-- Error values of the core services. Each constructor corresponds to one
distinct error value or `errors.New` site in vault_service.go /
secret_service.go:
`forbiddenAccess` = `ErrForbiddenAccess`,
`cannotShareWithSelf` = `ErrCannotShareWithSelf`,
`invalidPermissionLevel` = `ErrInvalidPermissionLevel`,
`notCurrentlyShared` = the "user is not currently shared on vault" errors,
`noValidTargets` = the "no valid target users found" error in ShareVault,
`cannotRemoveOwnerAccess` = the ad hoc
`errors.New("cannot remove owner's access from their own vault")`
in RemoveShare. -/
inductive CoreErr where
  | forbiddenAccess
  | cannotShareWithSelf
  | invalidPermissionLevel
  | notCurrentlyShared
  | noValidTargets
  | cannotRemoveOwnerAccess
  deriving DecidableEq, Repr

/-- The sharing-relevant state of `models.Vault` (vault_model.go): the owner
and the `SharedWith map[string]string` (userID to permission level). The Go
map is embedded as a function to `Option String` (`none` = key absent).
Fields not consulted by the access or sharing logic (name, description,
tags, timestamps) are omitted. -/
structure Vault where
  ownerID : String
  sharedWith : String → Option String

/-- Map write `vault.SharedWith[target] = level`. -/
def Vault.setShare (v : Vault) (target level : String) : Vault :=
  { v with sharedWith := fun u => if u = target then some level else v.sharedWith u }

/-- Map delete `delete(vault.SharedWith, target)`. -/
def Vault.removeShareEntry (v : Vault) (target : String) : Vault :=
  { v with sharedWith := fun u => if u = target then none else v.sharedWith u }

theorem Vault.setShare_ownerID (v : Vault) (target level : String) :
    (v.setShare target level).ownerID = v.ownerID := rfl

theorem Vault.setShare_sharedWith (v : Vault) (target level u : String) :
    (v.setShare target level).sharedWith u
      = if u = target then some level else v.sharedWith u := rfl

theorem Vault.removeShareEntry_ownerID (v : Vault) (target : String) :
    (v.removeShareEntry target).ownerID = v.ownerID := rfl

theorem Vault.removeShareEntry_sharedWith (v : Vault) (target u : String) :
    (v.removeShareEntry target).sharedWith u
      = if u = target then none else v.sharedWith u := rfl

/-- The permission decision of `secretService.checkVaultAccess`
(secret_service.go lines 86-104), after the vault has been fetched:
owner short-circuit, `SharedWith` lookup, then the two sufficiency
conditionals with a fall-through to `ErrForbiddenAccess`. -/
def checkVaultAccess (vault : Vault) (userID requiredPermissionLevel : String) :
    Except CoreErr Vault :=
  if vault.ownerID = userID then .ok vault
  else
    match vault.sharedWith userID with
    | none => .error .forbiddenAccess
    | some permission =>
      if requiredPermissionLevel = "read" ∧ (permission = "read" ∨ permission = "write") then
        .ok vault
      else if requiredPermissionLevel = "write" ∧ permission = "write" then
        .ok vault
      else .error .forbiddenAccess

/-- The permission decision of `vaultService.GetVaultByID` (vault_service.go
lines 160-186), after the vault has been fetched: a non-owner needs only to
be present as a key of `SharedWith`; the looked-up level is bound but never
inspected (`_ = permission`). -/
def getVaultByID (vault : Vault) (userID : String) : Except CoreErr Vault :=
  if vault.ownerID ≠ userID then
    match vault.sharedWith userID with
    | none => .error .forbiddenAccess
    | some _ => .ok vault
  else .ok vault

/-- The vault value constructed by `vaultService.CreateVault`
(vault_service.go lines 108-116): owner set to the requesting user and
`SharedWith` initialized to an empty map. -/
def createVault (userID : String) : Vault :=
  { ownerID := userID, sharedWith := fun _ => none }

/-- One audit log entry, with the fields that `ShareVault`,
`UpdateSharePermissions` and `RemoveShare` write into `models.AuditLog`
(actor, action, vault ID, target user, permission level). -/
structure AuditRecord where
  userID : String
  action : String
  targetID : String
  sharedWithUserID : String
  permissionLevel : String
  deriving DecidableEq, Repr

/-- Result of a successful `ShareVault`: the updated vault, the
`sharedToUserIDs` accumulator, and the audit log entries written in the
final loop (one per granted user). -/
structure ShareOutcome where
  vault : Vault
  granted : List String
  audits : List AuditRecord

/-- One iteration of the `for _, targetUserID := range req.UserIDs` loop in
`ShareVault` (vault_service.go lines 344-371): skip a self target, skip a
nonexistent target, otherwise write the map entry and append to
`sharedToUserIDs`. -/
def shareStep (ownerID permissionLevel : String) (userExists : String → Bool)
    (acc : Vault × List String) (targetUserID : String) : Vault × List String :=
  if targetUserID = ownerID then acc
  else if userExists targetUserID then
    (acc.1.setShare targetUserID permissionLevel, acc.2 ++ [targetUserID])
  else acc

/-- The whole `range req.UserIDs` loop of `ShareVault`: the final vault and
the final `sharedToUserIDs` list. -/
def shareFold (userExists : String → Bool) (ownerID permissionLevel : String)
    (vault : Vault) (userIDs : List String) : Vault × List String :=
  userIDs.foldl (shareStep ownerID permissionLevel userExists) (vault, [])

/-- `vaultService.ShareVault` (vault_service.go lines 317-412), after the
vault fetch: owner check, permission-level validation, the per-target loop,
the empty-grant failure cases, and the audit records of the final loop.
`userExists` stands for the `userRepo.GetByID` existence check on each
target. -/
def shareVault (userExists : String → Bool) (ownerID vaultID : String) (vault : Vault)
    (userIDs : List String) (permissionLevel : String) : Except CoreErr ShareOutcome :=
  if vault.ownerID ≠ ownerID then .error .forbiddenAccess
  else if permissionLevel ≠ "read" ∧ permissionLevel ≠ "write" then
    .error .invalidPermissionLevel
  else if (shareFold userExists ownerID permissionLevel vault userIDs).2 = []
      ∧ userIDs ≠ [] then
    if userIDs.length = 1 ∧ userIDs.head? = some ownerID then .error .cannotShareWithSelf
    else .error .noValidTargets
  else if (shareFold userExists ownerID permissionLevel vault userIDs).2 = [] then
    .ok ⟨vault, [], []⟩
  else
    .ok ⟨(shareFold userExists ownerID permissionLevel vault userIDs).1,
      (shareFold userExists ownerID permissionLevel vault userIDs).2,
      (shareFold userExists ownerID permissionLevel vault userIDs).2.map
        (fun u => ⟨ownerID, "VAULT_SHARE", vaultID, u, permissionLevel⟩)⟩

/-- `vaultService.UpdateSharePermissions` (vault_service.go lines 416-470),
after the vault fetch: owner check, self-target rejection with
`ErrCannotShareWithSelf`, membership check, permission-level validation,
then the map write and audit record. -/
def updateSharePermissions (ownerID vaultID targetUserID permissionLevel : String)
    (vault : Vault) : Except CoreErr (Vault × AuditRecord) :=
  if vault.ownerID ≠ ownerID then .error .forbiddenAccess
  else if targetUserID = ownerID then .error .cannotShareWithSelf
  else
    match vault.sharedWith targetUserID with
    | none => .error .notCurrentlyShared
    | some _ =>
      if permissionLevel ≠ "read" ∧ permissionLevel ≠ "write" then
        .error .invalidPermissionLevel
      else
        .ok (vault.setShare targetUserID permissionLevel,
          ⟨ownerID, "VAULT_SHARE_UPDATE_PERMISSION", vaultID, targetUserID, permissionLevel⟩)

/-- `vaultService.RemoveShare` (vault_service.go lines 473-522), after the
vault fetch: owner check, self-target rejection with the dedicated
"cannot remove owner's access" error, membership check, then the map
delete and audit record. -/
def removeShare (ownerID vaultID targetUserID : String) (vault : Vault) :
    Except CoreErr (Vault × AuditRecord) :=
  if vault.ownerID ≠ ownerID then .error .forbiddenAccess
  else if targetUserID = ownerID then .error .cannotRemoveOwnerAccess
  else
    match vault.sharedWith targetUserID with
    | none => .error .notCurrentlyShared
    | some _ =>
      .ok (vault.removeShareEntry targetUserID,
        ⟨ownerID, "VAULT_SHARE_REMOVE", vaultID, targetUserID, ""⟩)

/-- The invariant of claim C4: the owner never appears as a key of
`sharedWith`. -/
def ownerNotShared (v : Vault) : Prop := v.sharedWith v.ownerID = none

/-! Concrete vault snapshots used by witnesses and counterexamples. -/

/-- A vault owned by `u1`, shared with nobody. -/
def vNone : Vault := { ownerID := "u1", sharedWith := fun _ => none }

/-- A vault owned by `u1`, shared with `u2` at level `read`. -/
def vRead : Vault :=
  { ownerID := "u1", sharedWith := fun u => if u = "u2" then some "read" else none }

/-- A vault owned by `u1`, shared with `u2` at level `write`. -/
def vWrite : Vault :=
  { ownerID := "u1", sharedWith := fun u => if u = "u2" then some "write" else none }

/-- A vault owned by `u1`, whose `sharedWith` holds the out-of-range level
`admin` for `u2`. -/
def vAdmin : Vault :=
  { ownerID := "u1", sharedWith := fun u => if u = "u2" then some "admin" else none }

/-! ### Access evaluation (claims C2, C3, C10) -/

/-- C2: the permission decision of `checkVaultAccess`: the owner is allowed
for every required level and every `sharedWith` map (so no lookup outcome
can change the answer); a non-owner absent from `sharedWith` gets
`forbiddenAccess` for every required level; a stored `write` satisfies both
`read` and `write`; a stored `read` satisfies `read` but gets
`forbiddenAccess` for `write`. -/
theorem checkVaultAccess_decision_table :
    (∀ (v : Vault) (u req : String), v.ownerID = u →
      checkVaultAccess v u req = .ok v)
    ∧ (∀ (v : Vault) (u req : String), v.ownerID ≠ u → v.sharedWith u = none →
      checkVaultAccess v u req = .error .forbiddenAccess)
    ∧ (∀ (v : Vault) (u req : String), v.ownerID ≠ u → v.sharedWith u = some "write" →
      (req = "read" ∨ req = "write") → checkVaultAccess v u req = .ok v)
    ∧ (∀ (v : Vault) (u : String), v.ownerID ≠ u → v.sharedWith u = some "read" →
      checkVaultAccess v u "read" = .ok v
        ∧ checkVaultAccess v u "write" = .error .forbiddenAccess) := by
  refine ⟨?_, ?_, ?_, ?_⟩
  · intro v u req h
    simp [checkVaultAccess, h]
  · intro v u req h hmap
    simp [checkVaultAccess, h, hmap]
  · intro v u req h hmap hreq
    rcases hreq with h1 | h1 <;> simp [checkVaultAccess, h, hmap, h1]
  · intro v u h hmap
    constructor <;> simp [checkVaultAccess, h, hmap]

/-- Witness for C2: the decision table evaluated on concrete snapshots. -/
theorem checkVaultAccess_decision_table_witness :
    checkVaultAccess vNone "u1" "write" = .ok vNone
    ∧ checkVaultAccess vNone "u2" "read" = .error .forbiddenAccess
    ∧ checkVaultAccess vWrite "u2" "write" = .ok vWrite
    ∧ checkVaultAccess vRead "u2" "read" = .ok vRead
    ∧ checkVaultAccess vRead "u2" "write" = .error .forbiddenAccess :=
  ⟨checkVaultAccess_decision_table.1 vNone "u1" "write" rfl,
   checkVaultAccess_decision_table.2.1 vNone "u2" "read" (by decide) rfl,
   checkVaultAccess_decision_table.2.2.1 vWrite "u2" "write" (by decide) rfl (Or.inr rfl),
   (checkVaultAccess_decision_table.2.2.2 vRead "u2" (by decide) rfl).1,
   (checkVaultAccess_decision_table.2.2.2 vRead "u2" (by decide) rfl).2⟩

/-- C3 counterexample: for the out-of-range stored level `admin`,
`checkVaultAccess` returns `forbiddenAccess` — not `invalidPermissionLevel`
as claimed — for both required levels. -/
theorem checkVaultAccess_unknown_level_cex :
    checkVaultAccess vAdmin "u2" "read" = .error .forbiddenAccess
    ∧ checkVaultAccess vAdmin "u2" "read" ≠ .error .invalidPermissionLevel
    ∧ checkVaultAccess vAdmin "u2" "write" = .error .forbiddenAccess
    ∧ checkVaultAccess vAdmin "u2" "write" ≠ .error .invalidPermissionLevel := by
  refine ⟨rfl, ?_, rfl, ?_⟩ <;> simp [checkVaultAccess, vAdmin]

/-- C3 amended: a non-owner whose `sharedWith` entry holds a value outside
`{read, write}` fails with `forbiddenAccess` (the generic fall-through of
`checkVaultAccess`) for every required level; no `invalidPermissionLevel`
check exists on this path. -/
theorem checkVaultAccess_unknown_level_forbidden :
    ∀ (v : Vault) (u req p : String), v.ownerID ≠ u → v.sharedWith u = some p →
      p ≠ "read" → p ≠ "write" →
      checkVaultAccess v u req = .error .forbiddenAccess := by
  intro v u req p h hmap hr hw
  simp [checkVaultAccess, h, hmap, hr, hw]

/-- Witness for the amended C3: the `admin` entry of `vAdmin` yields
`forbiddenAccess`. -/
theorem checkVaultAccess_unknown_level_forbidden_witness :
    checkVaultAccess vAdmin "u2" "read" = .error .forbiddenAccess :=
  checkVaultAccess_unknown_level_forbidden vAdmin "u2" "read" "admin"
    (by decide) rfl (by decide) (by decide)

/-- C10: `getVaultByID` grants access to any requester present as a key of
`sharedWith`, whatever the stored value (the level is bound but never
inspected); only complete absence from the map, for a non-owner, yields
`forbiddenAccess`. -/
theorem getVaultByID_membership_only :
    (∀ (v : Vault) (u p : String), v.sharedWith u = some p →
      getVaultByID v u = .ok v)
    ∧ (∀ (v : Vault) (u : String), v.ownerID ≠ u → v.sharedWith u = none →
      getVaultByID v u = .error .forbiddenAccess) := by
  constructor
  · intro v u p hmap
    by_cases h : v.ownerID ≠ u <;> simp [getVaultByID, h, hmap]
  · intro v u h hmap
    simp [getVaultByID, h, hmap]

/-- Witness for C10: the out-of-range level `admin` still grants read
access to the vault record, while absence is forbidden. -/
theorem getVaultByID_membership_only_witness :
    getVaultByID vAdmin "u2" = .ok vAdmin
    ∧ getVaultByID vNone "u2" = .error .forbiddenAccess :=
  ⟨getVaultByID_membership_only.1 vAdmin "u2" "admin" rfl,
   getVaultByID_membership_only.2 vNone "u2" (by decide) rfl⟩

/-! ### Sharing mutations (claims C4, C5, C9) -/

/-- The `ShareVault` loop never touches the owner key: it preserves the
owner field and the absence of the owner from `sharedWith`. -/
theorem shareFold_preserves (ownerID lvl : String) (ue : String → Bool) :
    ∀ (ids : List String) (acc : Vault × List String),
      acc.1.ownerID = ownerID → acc.1.sharedWith ownerID = none →
      (ids.foldl (shareStep ownerID lvl ue) acc).1.ownerID = ownerID
        ∧ (ids.foldl (shareStep ownerID lvl ue) acc).1.sharedWith ownerID = none := by
  intro ids
  induction ids with
  | nil => intro acc h1 h2; exact ⟨h1, h2⟩
  | cons t ts ih =>
    intro acc h1 h2
    apply ih
    · unfold shareStep
      split
      · exact h1
      · split
        · rw [Vault.setShare_ownerID]; exact h1
        · exact h1
    · unfold shareStep
      split
      · exact h2
      · split
        next ht _ =>
          rw [Vault.setShare_sharedWith, if_neg]
          · exact h2
          · intro he; exact ht (by rw [← he])
        · exact h2

/-- C4: the invariant "the owner never appears as a key of `sharedWith`"
is established by `createVault` (empty map) and preserved by every
successful `shareVault`, `updateSharePermissions` and `removeShare`
(self targets are rejected or skipped before any map write). -/
theorem ownerNotShared_preserved :
    (∀ u : String, ownerNotShared (createVault u))
    ∧ (∀ (ue : String → Bool) (oid vid : String) (v : Vault) (ids : List String)
        (lvl : String) (o : ShareOutcome),
        shareVault ue oid vid v ids lvl = .ok o →
        ownerNotShared v → ownerNotShared o.vault)
    ∧ (∀ (oid vid t lvl : String) (v : Vault) (r : Vault × AuditRecord),
        updateSharePermissions oid vid t lvl v = .ok r →
        ownerNotShared v → ownerNotShared r.1)
    ∧ (∀ (oid vid t : String) (v : Vault) (r : Vault × AuditRecord),
        removeShare oid vid t v = .ok r →
        ownerNotShared v → ownerNotShared r.1) := by
  refine ⟨?_, ?_, ?_, ?_⟩
  · intro u; rfl
  · intro ue oid vid v ids lvl o h hinv
    rw [shareVault] at h
    split at h
    · exact absurd h (by simp)
    next hown =>
      rw [not_not] at hown
      split at h
      · exact absurd h (by simp)
      · split at h
        · split at h <;> exact absurd h (by simp)
        · split at h
          · injection h with h
            subst h
            exact hinv
          · injection h with h
            subst h
            have hfold := shareFold_preserves oid lvl ue ids (v, [])
              hown (by rw [← hown]; exact hinv)
            show (shareFold ue oid lvl v ids).1.sharedWith
              (shareFold ue oid lvl v ids).1.ownerID = none
            unfold shareFold
            rw [hfold.1]
            exact hfold.2
  · intro oid vid t lvl v r h hinv
    rw [updateSharePermissions] at h
    split at h
    · exact absurd h (by simp)
    next hown =>
      rw [not_not] at hown
      split at h
      · exact absurd h (by simp)
      next hself =>
        split at h
        · exact absurd h (by simp)
        · split at h
          · exact absurd h (by simp)
          · injection h with h
            subst h
            show (v.setShare t lvl).sharedWith (v.setShare t lvl).ownerID = none
            rw [Vault.setShare_ownerID, Vault.setShare_sharedWith, if_neg]
            · exact hinv
            · rw [hown]; exact fun he => hself he.symm
  · intro oid vid t v r h hinv
    rw [removeShare] at h
    split at h
    · exact absurd h (by simp)
    · split at h
      · exact absurd h (by simp)
      · split at h
        · exact absurd h (by simp)
        · injection h with h
          subst h
          show (v.removeShareEntry t).sharedWith (v.removeShareEntry t).ownerID = none
          rw [Vault.removeShareEntry_ownerID, Vault.removeShareEntry_sharedWith]
          split
          · rfl
          · exact hinv

/-- Witness for C4: the invariant holds on a concrete creation and after a
concrete share, permission update, and share removal. -/
theorem ownerNotShared_preserved_witness :
    ownerNotShared (createVault "u1")
    ∧ ownerNotShared (ShareOutcome.mk (vNone.setShare "u2" "read") ["u2"]
        [⟨"u1", "VAULT_SHARE", "v1", "u2", "read"⟩]).vault
    ∧ ownerNotShared (vRead.setShare "u2" "write",
        (⟨"u1", "VAULT_SHARE_UPDATE_PERMISSION", "v1", "u2", "write"⟩ : AuditRecord)).1
    ∧ ownerNotShared (vRead.removeShareEntry "u2",
        (⟨"u1", "VAULT_SHARE_REMOVE", "v1", "u2", ""⟩ : AuditRecord)).1 :=
  ⟨ownerNotShared_preserved.1 "u1",
   ownerNotShared_preserved.2.1 (fun u => u == "u2") "u1" "v1" vNone ["u2"] "read"
     _ rfl rfl,
   ownerNotShared_preserved.2.2.1 "u1" "v1" "u2" "write" vRead _ rfl rfl,
   ownerNotShared_preserved.2.2.2 "u1" "v1" "u2" vRead _ rfl rfl⟩

/-- C5 counterexample: `removeShare` on a self target fails with the
dedicated "cannot remove owner's access from their own vault" error, not
with `cannotShareWithSelf` as the claim states. -/
theorem removeShare_self_cex :
    removeShare "u1" "v1" "u1" vNone = .error .cannotRemoveOwnerAccess
    ∧ removeShare "u1" "v1" "u1" vNone ≠ .error .cannotShareWithSelf := by
  refine ⟨rfl, ?_⟩
  simp [removeShare, vNone]

/-- C5 amended: a share request whose target list is exactly `[owner]`
fails with `cannotShareWithSelf` (for a valid permission level; a self
target inside a larger batch is skipped instead of failing the call);
`updateSharePermissions` on a self target fails with
`cannotShareWithSelf`; `removeShare` on a self target fails with the
distinct `cannotRemoveOwnerAccess` error. Each failure returns before any
map write, so `sharedWith` is unchanged. -/
theorem self_target_rejection :
    (∀ (ue : String → Bool) (oid vid : String) (v : Vault) (lvl : String),
      v.ownerID = oid → (lvl = "read" ∨ lvl = "write") →
      shareVault ue oid vid v [oid] lvl = .error .cannotShareWithSelf)
    ∧ (∀ (oid vid lvl : String) (v : Vault), v.ownerID = oid →
      updateSharePermissions oid vid oid lvl v = .error .cannotShareWithSelf)
    ∧ (∀ (oid vid : String) (v : Vault), v.ownerID = oid →
      removeShare oid vid oid v = .error .cannotRemoveOwnerAccess) := by
  refine ⟨?_, ?_, ?_⟩
  · intro ue oid vid v lvl hown hlvl
    rcases hlvl with h1 | h1 <;>
      simp [shareVault, shareFold, shareStep, hown, h1]
  · intro oid vid lvl v hown
    simp [updateSharePermissions, hown]
  · intro oid vid v hown
    simp [removeShare, hown]

/-- Witness for the amended C5: the three self-target rejections on
concrete calls. -/
theorem self_target_rejection_witness :
    shareVault (fun _ => true) "u1" "v1" vNone ["u1"] "read"
        = .error .cannotShareWithSelf
    ∧ updateSharePermissions "u1" "v1" "u1" "read" vNone
        = .error .cannotShareWithSelf
    ∧ removeShare "u1" "v1" "u1" vNone = .error .cannotRemoveOwnerAccess :=
  ⟨self_target_rejection.1 (fun _ => true) "u1" "v1" vNone "read" rfl (Or.inl rfl),
   self_target_rejection.2.1 "u1" "v1" "read" vNone rfl,
   self_target_rejection.2.2 "u1" "v1" vNone rfl⟩

/-- C9: a share request with a non-empty target list either fails or grants
access to at least one identity (an all-skipped batch is an error, never a
silent success), and on success each granted identity carries its own
`VAULT_SHARE` audit record. -/
theorem shareVault_nonempty_grant_audit :
    ∀ (ue : String → Bool) (oid vid : String) (v : Vault) (ids : List String)
      (lvl : String) (o : ShareOutcome),
      ids ≠ [] → shareVault ue oid vid v ids lvl = .ok o →
      o.granted ≠ []
        ∧ o.audits = o.granted.map (fun u => ⟨oid, "VAULT_SHARE", vid, u, lvl⟩) := by
  intro ue oid vid v ids lvl o hids h
  rw [shareVault] at h
  split at h
  · exact absurd h (by simp)
  · split at h
    · exact absurd h (by simp)
    · split at h
      · split at h <;> exact absurd h (by simp)
      next hne =>
        split at h
        next hempty =>
          exact absurd (And.intro hempty hids) hne
        next hnon =>
          injection h with h
          subst h
          exact ⟨hnon, rfl⟩

/-- Witness for C9: a concrete batch share of `["u2"]` grants `["u2"]` and
writes exactly one matching audit record. -/
theorem shareVault_nonempty_grant_audit_witness :
    (ShareOutcome.mk (vNone.setShare "u2" "read") ["u2"]
        [⟨"u1", "VAULT_SHARE", "v1", "u2", "read"⟩]).granted ≠ []
    ∧ (ShareOutcome.mk (vNone.setShare "u2" "read") ["u2"]
        [⟨"u1", "VAULT_SHARE", "v1", "u2", "read"⟩]).audits
      = (ShareOutcome.mk (vNone.setShare "u2" "read") ["u2"]
        [⟨"u1", "VAULT_SHARE", "v1", "u2", "read"⟩]).granted.map
          (fun u => ⟨"u1", "VAULT_SHARE", "v1", u, "read"⟩) :=
  shareVault_nonempty_grant_audit (fun u => u == "u2") "u1" "v1" vNone ["u2"] "read"
    _ (by decide) rfl

/-! ### The crypto codec (internal/crypto/crypto.go)

Byte strings are `List Nat` with values below 256 (Go strings are byte
strings, and `[]byte(s)` / `string(b)` are identities on bytes). -/

/-- Error returns of `crypto.Encrypt` / `crypto.Decrypt`; one constructor
per distinct `errors.New` / wrapped-error site in crypto.go. -/
inductive CryptoErr where
  | invalidKeyLength
  | base64DecodeFailed
  | tooShortForIV
  | ivHexDecodeFailed
  | invalidIVLength
  | ciphertextHexDecodeFailed
  | ciphertextNotBlockMultiple
  | emptyPlaintext
  | invalidPadding
  | invalidPaddingBytes
  | plaintextTooShort
  deriving DecidableEq, Repr

/-- Lowercase hex digit of a value below 16, as Go's
`encoding/hex.EncodeToString` emits (ASCII code). -/
def hexDigitChar (n : Nat) : Nat := if n < 10 then 48 + n else 87 + n

/-- `encoding/hex.EncodeToString`: each byte becomes its high then low hex
digit. -/
def hexEncode : List Nat → List Nat
  | [] => []
  | b :: bs => hexDigitChar (b / 16) :: hexDigitChar (b % 16) :: hexEncode bs

/-- Value of one hex digit (`encoding/hex` accepts `0-9`, `a-f`, `A-F`);
`none` on any other character. -/
def hexDigitVal (c : Nat) : Option Nat :=
  if 48 ≤ c ∧ c ≤ 57 then some (c - 48)
  else if 97 ≤ c ∧ c ≤ 102 then some (c - 87)
  else if 65 ≤ c ∧ c ≤ 70 then some (c - 55)
  else none

/-- `encoding/hex.DecodeString`: pairs of digits to bytes; fails on an odd
length or a non-hex character. -/
def hexDecode : List Nat → Option (List Nat)
  | [] => some []
  | [_] => none
  | c1 :: c2 :: cs =>
    match hexDigitVal c1, hexDigitVal c2, hexDecode cs with
    | some h, some l, some rest => some ((h * 16 + l) :: rest)
    | _, _, _ => none

/-- Character of a 6-bit group in the standard base64 alphabet
(`encoding/base64.StdEncoding`). -/
def b64Char (n : Nat) : Nat :=
  if n < 26 then 65 + n
  else if n < 52 then 97 + (n - 26)
  else if n < 62 then 48 + (n - 52)
  else if n = 62 then 43
  else 47

/-- Index of a standard-alphabet base64 character; `none` for anything
else (including the pad character `=`). -/
def b64Index (c : Nat) : Option Nat :=
  if 65 ≤ c ∧ c ≤ 90 then some (c - 65)
  else if 97 ≤ c ∧ c ≤ 122 then some (c - 71)
  else if 48 ≤ c ∧ c ≤ 57 then some (c + 4)
  else if c = 43 then some 62
  else if c = 47 then some 63
  else none

/-- `encoding/base64.StdEncoding.EncodeToString`: groups of three bytes
become four characters; a final group of one or two bytes is completed
with `=` padding (ASCII 61). -/
def base64Encode : List Nat → List Nat
  | [] => []
  | [a] => [b64Char (a / 4), b64Char (a % 4 * 16), 61, 61]
  | [a, b] => [b64Char (a / 4), b64Char (a % 4 * 16 + b / 16), b64Char (b % 16 * 4), 61]
  | a :: b :: c :: rest =>
    b64Char (a / 4) :: b64Char (a % 4 * 16 + b / 16) ::
      b64Char (b % 16 * 4 + c / 64) :: b64Char (c % 64) :: base64Encode rest

/-- `encoding/base64.StdEncoding.DecodeString`: four characters yield three
bytes; `xx==` and `xxx=` are accepted only as the final group; the length
must be a multiple of four; any character outside the alphabet fails. -/
def base64Decode : List Nat → Option (List Nat)
  | [] => some []
  | c1 :: c2 :: c3 :: c4 :: rest =>
    match b64Index c1, b64Index c2 with
    | some i1, some i2 =>
      if c3 = 61 then
        if c4 = 61 ∧ rest = [] then some [i1 * 4 + i2 / 16] else none
      else
        match b64Index c3 with
        | some i3 =>
          if c4 = 61 then
            if rest = [] then some [i1 * 4 + i2 / 16, i2 % 16 * 16 + i3 / 4] else none
          else
            match b64Index c4, base64Decode rest with
            | some i4, some tail =>
              some ((i1 * 4 + i2 / 16) :: (i2 % 16 * 16 + i3 / 4) ::
                (i3 % 4 * 64 + i4) :: tail)
            | _, _ => none
        | none => none
    | _, _ => none
  | _ => none

/-- Byte-wise XOR of two equal-length blocks, as CBC chaining applies it. -/
def xorBytes (a b : List Nat) : List Nat := List.zipWith Nat.xor a b

/-- Abstract model of the AES-256 block cipher instance built by
`aes.NewCipher(key)` from Go's standard library (vendor code, external to
this repository): the pair of 16-byte block transforms. The properties AES
guarantees (inversion, length and byte-range preservation) are taken as
hypotheses by the theorems that need them. -/
structure BlockCipher where
  enc : List Nat → List Nat
  dec : List Nat → List Nat

/-- CBC encryption (`cipher.NewCBCEncrypter(...).CryptBlocks`): each
16-byte block is XORed with the previous ciphertext block (initially the
IV) and then put through the block cipher. -/
def cbcEncrypt (encBlock : List Nat → List Nat) (prev pt : List Nat) : List Nat :=
  if pt = [] then []
  else
    encBlock (xorBytes prev (pt.take 16))
      ++ cbcEncrypt encBlock (encBlock (xorBytes prev (pt.take 16))) (pt.drop 16)
termination_by pt.length
decreasing_by
  have := List.length_pos.mpr (by assumption : pt ≠ [])
  simp only [List.length_drop]
  omega

/-- CBC decryption (`cipher.NewCBCDecrypter(...).CryptBlocks`): each
16-byte ciphertext block is put through the inverse block cipher and XORed
with the previous ciphertext block (initially the IV). -/
def cbcDecrypt (decBlock : List Nat → List Nat) (prev ct : List Nat) : List Nat :=
  if ct = [] then []
  else
    xorBytes prev (decBlock (ct.take 16))
      ++ cbcDecrypt decBlock (ct.take 16) (ct.drop 16)
termination_by ct.length
decreasing_by
  have := List.length_pos.mpr (by assumption : ct ≠ [])
  simp only [List.length_drop]
  omega

/-- The padding length `Encrypt` computes:
`aes.BlockSize - len(plainTextBytes)%aes.BlockSize`. -/
def padLen (n : Nat) : Nat := 16 - n % 16

/-- The padding step of `crypto.Encrypt` (crypto.go lines 51-55):
append `padding` copies of the byte `padding`. -/
def pkcs7pad (bs : List Nat) : List Nat :=
  bs ++ List.replicate (padLen bs.length) (padLen bs.length)

/-- `crypto.Encrypt` (crypto.go lines 41-74), with the random 16-byte IV it
draws passed as the `iv` parameter and the AES-256 instance
`aes.NewCipher(key)` as `bc`: key-length guard, PKCS#7 padding, CBC
encryption, hex encoding of IV and ciphertext, concatenation, base64. -/
def Encrypt (bc : BlockCipher) (plainText key iv : List Nat) :
    Except CryptoErr (List Nat) :=
  if key.length ≠ 32 then .error .invalidKeyLength
  else
    .ok (base64Encode (hexEncode iv
      ++ hexEncode (cbcEncrypt bc.enc iv (pkcs7pad plainText))))

/-- The padding validation and removal block of `crypto.Decrypt`
(crypto.go lines 128-146), in the source's order: empty check, declared
pad length read from the last byte (`pb.getLastD 0` = `pb[len-1]`), range
check, verification of the pad bytes before the last one, the
`len < padding` check (after the byte verification, exactly as in the Go
code), then truncation. -/
def pkcs7unpad (pb : List Nat) : Except CryptoErr (List Nat) :=
  if pb.length = 0 then .error .emptyPlaintext
  else if pb.getLastD 0 > 16 ∨ pb.getLastD 0 = 0 then .error .invalidPadding
  else if ¬ ((pb.drop (pb.length - pb.getLastD 0)).take (pb.getLastD 0 - 1)).all
      (fun b => b == pb.getLastD 0) then .error .invalidPaddingBytes
  else if pb.length < pb.getLastD 0 then .error .plaintextTooShort
  else .ok (pb.take (pb.length - pb.getLastD 0))

/-- `crypto.Decrypt` (crypto.go lines 84-149), with the AES-256 instance as
`bc`: key-length guard, base64 decode, minimum-length check, split at 32
characters, hex decodes, IV-length and block-multiple checks, CBC
decryption, then PKCS#7 padding validation and truncation
(`pkcs7unpad`). -/
def Decrypt (bc : BlockCipher) (cipherTextBase64 key : List Nat) :
    Except CryptoErr (List Nat) :=
  if key.length ≠ 32 then .error .invalidKeyLength
  else
    match base64Decode cipherTextBase64 with
    | none => .error .base64DecodeFailed
    | some combined =>
      if combined.length < 32 then .error .tooShortForIV
      else
        match hexDecode (combined.take 32) with
        | none => .error .ivHexDecodeFailed
        | some iv =>
          if iv.length ≠ 16 then .error .invalidIVLength
          else
            match hexDecode (combined.drop 32) with
            | none => .error .ciphertextHexDecodeFailed
            | some cipherTextBytes =>
              if cipherTextBytes.length % 16 ≠ 0 then .error .ciphertextNotBlockMultiple
              else pkcs7unpad (cbcDecrypt bc.dec iv cipherTextBytes)

/-! ### Padding (claim C8) -/

/-- C8: `Encrypt` pads with exactly `16 - (L mod 16)` bytes, each pad byte
equal to the pad length; the pad length is always in `[1, 16]` (never 0);
a plaintext whose length is a multiple of 16 — in particular one of
exactly 16 bytes — receives a full extra 16-byte block; the padded length
is always a multiple of 16. -/
theorem pkcs7pad_spec :
    ∀ p : List Nat,
      1 ≤ padLen p.length
      ∧ padLen p.length ≤ 16
      ∧ pkcs7pad p = p ++ List.replicate (padLen p.length) (padLen p.length)
      ∧ (pkcs7pad p).length = p.length + padLen p.length
      ∧ (pkcs7pad p).length % 16 = 0
      ∧ (∀ b ∈ List.replicate (padLen p.length) (padLen p.length), b = padLen p.length)
      ∧ (p.length % 16 = 0 → (pkcs7pad p).length = p.length + 16) := by
  intro p
  refine ⟨?_, ?_, rfl, ?_, ?_, ?_, ?_⟩
  · unfold padLen; omega
  · unfold padLen; omega
  · simp [pkcs7pad]
  · simp only [pkcs7pad, List.length_append, List.length_replicate, padLen]
    omega
  · intro b hb
    exact (List.mem_replicate.mp hb).2
  · intro h
    simp only [pkcs7pad, List.length_append, List.length_replicate, padLen]
    omega

/-- Witness for C8: a 16-byte plaintext gets a full 16-byte pad block
(32 bytes total), and a 13-byte plaintext gets a nonzero pad length. -/
theorem pkcs7pad_spec_witness :
    (pkcs7pad (List.replicate 16 0)).length = (List.replicate 16 (0 : Nat)).length + 16
    ∧ 1 ≤ padLen (List.replicate 13 (0 : Nat)).length :=
  ⟨(pkcs7pad_spec (List.replicate 16 0)).2.2.2.2.2.2 (by decide),
   (pkcs7pad_spec (List.replicate 13 0)).1⟩

/-! ### Key-length guard (claim C7) -/

/-- No outcome of the padding-validation block is the key-length error. -/
theorem pkcs7unpad_ne_invalidKeyLength :
    ∀ pb : List Nat, pkcs7unpad pb ≠ .error .invalidKeyLength := by
  intro pb
  unfold pkcs7unpad
  split
  · simp
  · split
    · simp
    · split
      · simp
      · split <;> simp

/-- C7: with a key of any length other than 32 bytes, both `Encrypt` and
`Decrypt` return the key-length error on every input (so no padding, IV,
encoding or cipher step can even be reached); with a 32-byte key, neither
ever returns that error. -/
theorem key_length_guard :
    (∀ (bc : BlockCipher) (p key iv s : List Nat), key.length ≠ 32 →
      Encrypt bc p key iv = .error .invalidKeyLength
        ∧ Decrypt bc s key = .error .invalidKeyLength)
    ∧ (∀ (bc : BlockCipher) (p key iv s : List Nat), key.length = 32 →
      Encrypt bc p key iv ≠ .error .invalidKeyLength
        ∧ Decrypt bc s key ≠ .error .invalidKeyLength) := by
  constructor
  · intro bc p key iv s h
    exact ⟨by simp [Encrypt, h], by simp [Decrypt, h]⟩
  · intro bc p key iv s h
    constructor
    · simp [Encrypt, h]
    · unfold Decrypt
      rw [if_neg (by simp [h])]
      split
      · simp
      · split
        · simp
        · split
          · simp
          · split
            · simp
            · split
              · simp
              · split
                · simp
                · exact pkcs7unpad_ne_invalidKeyLength _

/-- Witness for C7: a 16-byte and a 33-byte key are rejected with the
key-length error on concrete inputs; a 32-byte key is not. -/
theorem key_length_guard_witness :
    Encrypt ⟨fun b => b, fun b => b⟩ [104] (List.replicate 16 0) (List.replicate 16 0)
        = .error .invalidKeyLength
    ∧ Decrypt ⟨fun b => b, fun b => b⟩ [89, 81, 61, 61] (List.replicate 16 0)
        = .error .invalidKeyLength
    ∧ Encrypt ⟨fun b => b, fun b => b⟩ [104] (List.replicate 33 0) (List.replicate 16 0)
        = .error .invalidKeyLength
    ∧ Decrypt ⟨fun b => b, fun b => b⟩ [89, 81, 61, 61] (List.replicate 33 0)
        = .error .invalidKeyLength
    ∧ Encrypt ⟨fun b => b, fun b => b⟩ [104] (List.replicate 32 0) (List.replicate 16 0)
        ≠ .error .invalidKeyLength
    ∧ Decrypt ⟨fun b => b, fun b => b⟩ [89, 81, 61, 61] (List.replicate 32 0)
        ≠ .error .invalidKeyLength :=
  ⟨(key_length_guard.1 ⟨fun b => b, fun b => b⟩ [104] (List.replicate 16 0)
      (List.replicate 16 0) [89, 81, 61, 61] (by decide)).1,
   (key_length_guard.1 ⟨fun b => b, fun b => b⟩ [104] (List.replicate 16 0)
      (List.replicate 16 0) [89, 81, 61, 61] (by decide)).2,
   (key_length_guard.1 ⟨fun b => b, fun b => b⟩ [104] (List.replicate 33 0)
      (List.replicate 16 0) [89, 81, 61, 61] (by decide)).1,
   (key_length_guard.1 ⟨fun b => b, fun b => b⟩ [104] (List.replicate 33 0)
      (List.replicate 16 0) [89, 81, 61, 61] (by decide)).2,
   (key_length_guard.2 ⟨fun b => b, fun b => b⟩ [104] (List.replicate 32 0)
      (List.replicate 16 0) [89, 81, 61, 61] (by decide)).1,
   (key_length_guard.2 ⟨fun b => b, fun b => b⟩ [104] (List.replicate 32 0)
      (List.replicate 16 0) [89, 81, 61, 61] (by decide)).2⟩

/-! ### Hex and base64 round trips -/

theorem hexDigitVal_hexDigitChar : ∀ n < 16, hexDigitVal (hexDigitChar n) = some n := by
  decide

theorem hexDigitChar_lt : ∀ n < 16, hexDigitChar n < 256 := by decide

theorem hexEncode_length : ∀ bs : List Nat, (hexEncode bs).length = 2 * bs.length := by
  intro bs
  induction bs with
  | nil => rfl
  | cons b bs ih => simp [hexEncode, ih]; omega

theorem hexEncode_chars_lt :
    ∀ bs : List Nat, (∀ b ∈ bs, b < 256) → ∀ c ∈ hexEncode bs, c < 256 := by
  intro bs
  induction bs with
  | nil => simp [hexEncode]
  | cons b bs ih =>
    intro h
    have hb : b < 256 := h b (by simp)
    intro c hc
    rw [hexEncode] at hc
    simp only [List.mem_cons] at hc
    rcases hc with rfl | rfl | hc
    · exact hexDigitChar_lt _ (by omega)
    · exact hexDigitChar_lt _ (by omega)
    · exact ih (fun x hx => h x (by simp [hx])) c hc

theorem hexDecode_hexEncode :
    ∀ bs : List Nat, (∀ b ∈ bs, b < 256) → hexDecode (hexEncode bs) = some bs := by
  intro bs
  induction bs with
  | nil => intro h; rfl
  | cons b bs ih =>
    intro h
    have hb : b < 256 := h b (by simp)
    have h1 := hexDigitVal_hexDigitChar (b / 16) (by omega)
    have h2 := hexDigitVal_hexDigitChar (b % 16) (by omega)
    have e : b / 16 * 16 + b % 16 = b := by omega
    simp [hexEncode, hexDecode, h1, h2, ih (fun x hx => h x (by simp [hx])), e]

theorem b64Index_b64Char : ∀ n < 64, b64Index (b64Char n) = some n := by decide

theorem b64Char_ne_61 : ∀ n < 64, b64Char n ≠ 61 := by decide

theorem base64Decode_base64Encode :
    ∀ bs : List Nat, (∀ b ∈ bs, b < 256) → base64Decode (base64Encode bs) = some bs
  | [] => fun _ => rfl
  | [a] => fun h => by
    have ha : a < 256 := h a (by simp)
    have h1 := b64Index_b64Char (a / 4) (by omega)
    have h2 := b64Index_b64Char (a % 4 * 16) (by omega)
    simp [base64Encode, base64Decode, h1, h2]
    all_goals omega
  | [a, b] => fun h => by
    have ha : a < 256 := h a (by simp)
    have hb : b < 256 := h b (by simp)
    have h1 := b64Index_b64Char (a / 4) (by omega)
    have h2 := b64Index_b64Char (a % 4 * 16 + b / 16) (by omega)
    have h3 := b64Index_b64Char (b % 16 * 4) (by omega)
    have hne := b64Char_ne_61 (b % 16 * 4) (by omega)
    simp [base64Encode, base64Decode, h1, h2, h3, hne]
    all_goals omega
  | a :: b :: c :: rest => fun h => by
    have ha : a < 256 := h a (by simp)
    have hb : b < 256 := h b (by simp)
    have hc : c < 256 := h c (by simp)
    have h1 := b64Index_b64Char (a / 4) (by omega)
    have h2 := b64Index_b64Char (a % 4 * 16 + b / 16) (by omega)
    have h3 := b64Index_b64Char (b % 16 * 4 + c / 64) (by omega)
    have h4 := b64Index_b64Char (c % 64) (by omega)
    have hne3 := b64Char_ne_61 (b % 16 * 4 + c / 64) (by omega)
    have hne4 := b64Char_ne_61 (c % 64) (by omega)
    have ih := base64Decode_base64Encode rest (fun x hx => h x (by simp [hx]))
    simp [base64Encode, base64Decode, h1, h2, h3, h4, hne3, hne4, ih]
    all_goals omega

/-! ### CBC chaining lemmas -/

theorem xorBytes_length (a b : List Nat) :
    (xorBytes a b).length = min a.length b.length :=
  List.length_zipWith Nat.xor a b

theorem xorBytes_lt :
    ∀ a b : List Nat, (∀ x ∈ a, x < 256) → (∀ x ∈ b, x < 256) →
      ∀ x ∈ xorBytes a b, x < 256 := by
  intro a
  induction a with
  | nil => intro b _ _ x hx; simp [xorBytes] at hx
  | cons a0 as ih =>
    intro b ha hb x hx
    cases b with
    | nil => simp [xorBytes] at hx
    | cons b0 bs =>
      rw [xorBytes, List.zipWith_cons_cons] at hx
      simp only [List.mem_cons] at hx
      rcases hx with rfl | hx
      · have h1 : a0 < 2 ^ 8 := ha a0 (by simp)
        have h2 : b0 < 2 ^ 8 := hb b0 (by simp)
        exact Nat.xor_lt_two_pow h1 h2
      · exact ih bs (fun y hy => ha y (by simp [hy])) (fun y hy => hb y (by simp [hy])) x hx

theorem xorBytes_cancel :
    ∀ a b : List Nat, a.length = b.length → xorBytes a (xorBytes a b) = b := by
  intro a
  induction a with
  | nil =>
    intro b h
    cases b with
    | nil => rfl
    | cons b0 bs => simp at h
  | cons a0 as ih =>
    intro b h
    cases b with
    | nil => simp at h
    | cons b0 bs =>
      rw [xorBytes, xorBytes, List.zipWith_cons_cons, List.zipWith_cons_cons]
      have hx : Nat.xor a0 (Nat.xor a0 b0) = b0 := Nat.xor_cancel_left a0 b0
      rw [hx]
      have hrest := ih bs (by simpa using h)
      rw [xorBytes, xorBytes] at hrest
      rw [hrest]

theorem cbcEncrypt_nil (enc : List Nat → List Nat) (prev : List Nat) :
    cbcEncrypt enc prev [] = [] := by
  rw [cbcEncrypt]
  simp

theorem cbcEncrypt_cons (enc : List Nat → List Nat) (prev pt : List Nat) (h : pt ≠ []) :
    cbcEncrypt enc prev pt
      = enc (xorBytes prev (pt.take 16))
          ++ cbcEncrypt enc (enc (xorBytes prev (pt.take 16))) (pt.drop 16) := by
  rw [cbcEncrypt]
  simp [h]

theorem cbcDecrypt_nil (dec : List Nat → List Nat) (prev : List Nat) :
    cbcDecrypt dec prev [] = [] := by
  rw [cbcDecrypt]
  simp

theorem cbcDecrypt_cons (dec : List Nat → List Nat) (prev ct : List Nat) (h : ct ≠ []) :
    cbcDecrypt dec prev ct
      = xorBytes prev (dec (ct.take 16)) ++ cbcDecrypt dec (ct.take 16) (ct.drop 16) := by
  rw [cbcDecrypt]
  simp [h]

theorem cbcEncrypt_length (enc : List Nat → List Nat)
    (henc : ∀ b : List Nat, b.length = 16 → (enc b).length = 16) :
    ∀ (n : Nat) (pt prev : List Nat), prev.length = 16 → pt.length = 16 * n →
      (cbcEncrypt enc prev pt).length = 16 * n := by
  intro n
  induction n with
  | zero =>
    intro pt prev hprev hlen
    have : pt = [] := List.length_eq_zero.mp (by omega)
    subst this
    simp [cbcEncrypt_nil]
  | succ k ih =>
    intro pt prev hprev hlen
    have hne : pt ≠ [] := by
      intro hp; subst hp; simp only [List.length_nil] at hlen; omega
    have htake : (pt.take 16).length = 16 := by
      rw [List.length_take]; omega
    have hblk : (xorBytes prev (pt.take 16)).length = 16 := by
      rw [xorBytes_length, hprev, htake]
      omega
    have henc16 := henc _ hblk
    rw [cbcEncrypt_cons enc prev pt hne, List.length_append, henc16]
    have hdrop : (pt.drop 16).length = 16 * k := by
      rw [List.length_drop]; omega
    rw [ih (pt.drop 16) _ henc16 hdrop]
    omega

theorem cbcEncrypt_bytes_lt (enc : List Nat → List Nat)
    (henc : ∀ b : List Nat, b.length = 16 → (enc b).length = 16)
    (hbound : ∀ b : List Nat, b.length = 16 → (∀ x ∈ b, x < 256) →
      ∀ x ∈ enc b, x < 256) :
    ∀ (n : Nat) (pt prev : List Nat), prev.length = 16 → (∀ x ∈ prev, x < 256) →
      pt.length = 16 * n → (∀ x ∈ pt, x < 256) →
      ∀ x ∈ cbcEncrypt enc prev pt, x < 256 := by
  intro n
  induction n with
  | zero =>
    intro pt prev hprev hprevb hlen hptb
    have : pt = [] := List.length_eq_zero.mp (by omega)
    subst this
    simp [cbcEncrypt_nil]
  | succ k ih =>
    intro pt prev hprev hprevb hlen hptb
    have hne : pt ≠ [] := by
      intro hp; subst hp; simp only [List.length_nil] at hlen; omega
    have htake : (pt.take 16).length = 16 := by
      rw [List.length_take]; omega
    have hblk : (xorBytes prev (pt.take 16)).length = 16 := by
      rw [xorBytes_length, hprev, htake]
      omega
    have hblkb : ∀ x ∈ xorBytes prev (pt.take 16), x < 256 :=
      xorBytes_lt prev (pt.take 16) hprevb
        (fun x hx => hptb x (List.mem_of_mem_take hx))
    have hencb := hbound _ hblk hblkb
    have henc16 := henc _ hblk
    intro x hx
    rw [cbcEncrypt_cons enc prev pt hne] at hx
    rcases List.mem_append.mp hx with hx | hx
    · exact hencb x hx
    · exact ih (pt.drop 16) _ henc16 hencb
        (by rw [List.length_drop]; omega)
        (fun y hy => hptb y (List.mem_of_mem_drop hy)) x hx

theorem cbcDecrypt_cbcEncrypt (enc dec : List Nat → List Nat)
    (henc : ∀ b : List Nat, b.length = 16 → (enc b).length = 16)
    (hinv : ∀ b : List Nat, b.length = 16 → dec (enc b) = b) :
    ∀ (n : Nat) (pt prev : List Nat), prev.length = 16 → pt.length = 16 * n →
      cbcDecrypt dec prev (cbcEncrypt enc prev pt) = pt := by
  intro n
  induction n with
  | zero =>
    intro pt prev hprev hlen
    have : pt = [] := List.length_eq_zero.mp (by omega)
    subst this
    simp [cbcEncrypt_nil, cbcDecrypt_nil]
  | succ k ih =>
    intro pt prev hprev hlen
    have hne : pt ≠ [] := by
      intro hp; subst hp; simp only [List.length_nil] at hlen; omega
    have htake : (pt.take 16).length = 16 := by
      rw [List.length_take]; omega
    have hblk : (xorBytes prev (pt.take 16)).length = 16 := by
      rw [xorBytes_length, hprev, htake]
      omega
    have henc16 := henc _ hblk
    rw [cbcEncrypt_cons enc prev pt hne]
    have hctne : enc (xorBytes prev (pt.take 16))
        ++ cbcEncrypt enc (enc (xorBytes prev (pt.take 16))) (pt.drop 16) ≠ [] := by
      intro hc
      have := congrArg List.length hc
      rw [List.length_append, henc16] at this
      simp at this
    rw [cbcDecrypt_cons dec prev _ hctne]
    rw [List.take_left' henc16, List.drop_left' henc16]
    rw [hinv _ hblk]
    rw [xorBytes_cancel prev (pt.take 16) (by rw [hprev, htake])]
    rw [ih (pt.drop 16) _ henc16 (by rw [List.length_drop]; omega)]
    exact List.take_append_drop 16 pt

/-! ### Padding removal inverts padding -/

theorem pkcs7unpad_pkcs7pad : ∀ p : List Nat, pkcs7unpad (pkcs7pad p) = .ok p := by
  intro p
  have h1 : 1 ≤ padLen p.length := by unfold padLen; omega
  have h16 : padLen p.length ≤ 16 := by unfold padLen; omega
  obtain ⟨m, hm⟩ : ∃ m, padLen p.length = m + 1 :=
    ⟨padLen p.length - 1, by omega⟩
  have hlen : (pkcs7pad p).length = p.length + padLen p.length := by
    simp [pkcs7pad]
  have hlast : (pkcs7pad p).getLastD 0 = padLen p.length := by
    rw [pkcs7pad, hm, List.replicate_succ', ← List.append_assoc]
    exact List.getLastD_concat _ _ _
  have hdrop : (pkcs7pad p).drop ((pkcs7pad p).length - padLen p.length)
      = List.replicate (padLen p.length) (padLen p.length) := by
    rw [pkcs7pad, List.length_append, List.length_replicate]
    have : p.length + padLen p.length - padLen p.length = p.length := by omega
    rw [this]
    exact List.drop_left p _
  have htake : (pkcs7pad p).take ((pkcs7pad p).length - padLen p.length) = p := by
    rw [pkcs7pad, List.length_append, List.length_replicate]
    have : p.length + padLen p.length - padLen p.length = p.length := by omega
    rw [this]
    exact List.take_left p _
  rw [pkcs7unpad]
  rw [if_neg (by omega)]
  rw [hlast]
  rw [if_neg (by omega)]
  rw [hdrop]
  have hall : (List.take (padLen p.length - 1)
      (List.replicate (padLen p.length) (padLen p.length))).all
      (fun b => b == padLen p.length) = true := by
    rw [List.take_replicate]
    rw [List.all_eq_true]
    intro x hx
    have := (List.mem_replicate.mp hx).2
    simp [this]
  rw [if_neg (by simp [hall])]
  rw [if_neg (by omega)]
  rw [htake]

/-! ### Envelope format (claim C6) and round trip (claim C1) -/

theorem pkcs7pad_length_mod (p : List Nat) : (pkcs7pad p).length % 16 = 0 := by
  simp only [pkcs7pad, List.length_append, List.length_replicate, padLen]
  omega

theorem pkcs7pad_bytes_lt (p : List Nat) (h : ∀ x ∈ p, x < 256) :
    ∀ x ∈ pkcs7pad p, x < 256 := by
  intro x hx
  rw [pkcs7pad] at hx
  rcases List.mem_append.mp hx with hx | hx
  · exact h x hx
  · have := (List.mem_replicate.mp hx).2
    subst this
    unfold padLen
    omega

/-- C6: `Encrypt` returns exactly
`base64(hexEncode iv ++ hexEncode ciphertext)` where `ciphertext` is the
CBC encryption of the padded plaintext; consequently base64-decoding the
envelope gives back that concatenation, whose first 32 characters
hex-decode to the 16-byte IV and whose remainder hex-decodes to the
ciphertext, a byte sequence of length a multiple of 16. -/
theorem encrypt_envelope_format :
    ∀ (bc : BlockCipher) (p key iv : List Nat),
      key.length = 32 → iv.length = 16 → (∀ x ∈ iv, x < 256) → (∀ x ∈ p, x < 256) →
      (∀ b : List Nat, b.length = 16 → (bc.enc b).length = 16) →
      (∀ b : List Nat, b.length = 16 → (∀ x ∈ b, x < 256) → ∀ x ∈ bc.enc b, x < 256) →
      Encrypt bc p key iv
          = .ok (base64Encode (hexEncode iv
            ++ hexEncode (cbcEncrypt bc.enc iv (pkcs7pad p))))
        ∧ (hexEncode iv).length = 32
        ∧ base64Decode (base64Encode (hexEncode iv
            ++ hexEncode (cbcEncrypt bc.enc iv (pkcs7pad p))))
          = some (hexEncode iv ++ hexEncode (cbcEncrypt bc.enc iv (pkcs7pad p)))
        ∧ hexDecode ((hexEncode iv
            ++ hexEncode (cbcEncrypt bc.enc iv (pkcs7pad p))).take 32) = some iv
        ∧ hexDecode ((hexEncode iv
            ++ hexEncode (cbcEncrypt bc.enc iv (pkcs7pad p))).drop 32)
          = some (cbcEncrypt bc.enc iv (pkcs7pad p))
        ∧ (cbcEncrypt bc.enc iv (pkcs7pad p)).length % 16 = 0 := by
  intro bc p key iv hk hiv hivb hpb hlen hbound
  obtain ⟨n, hn⟩ : ∃ n, (pkcs7pad p).length = 16 * n :=
    ⟨(pkcs7pad p).length / 16, by have := pkcs7pad_length_mod p; omega⟩
  have hctlen : (cbcEncrypt bc.enc iv (pkcs7pad p)).length = 16 * n :=
    cbcEncrypt_length bc.enc hlen n (pkcs7pad p) iv hiv hn
  have hctb : ∀ x ∈ cbcEncrypt bc.enc iv (pkcs7pad p), x < 256 :=
    cbcEncrypt_bytes_lt bc.enc hlen hbound n (pkcs7pad p) iv hiv hivb hn
      (pkcs7pad_bytes_lt p hpb)
  have hlen_iv : (hexEncode iv).length = 32 := by
    rw [hexEncode_length, hiv]
  have hcomb : ∀ c ∈ hexEncode iv ++ hexEncode (cbcEncrypt bc.enc iv (pkcs7pad p)),
      c < 256 := by
    intro c hc
    rcases List.mem_append.mp hc with hc | hc
    · exact hexEncode_chars_lt iv hivb c hc
    · exact hexEncode_chars_lt _ hctb c hc
  refine ⟨?_, hlen_iv, base64Decode_base64Encode _ hcomb, ?_, ?_, ?_⟩
  · rw [Encrypt, if_neg (by simp [hk])]
  · rw [List.take_left' hlen_iv]
    exact hexDecode_hexEncode iv hivb
  · rw [List.drop_left' hlen_iv]
    exact hexDecode_hexEncode _ hctb
  · omega

/-- Witness for C6: the envelope format facts evaluated on a concrete
plaintext, key and IV with the identity block cipher. -/
theorem encrypt_envelope_format_witness :
    Encrypt ⟨fun b => b, fun b => b⟩ [104, 105] (List.replicate 32 0) (List.replicate 16 0)
        = .ok (base64Encode (hexEncode (List.replicate 16 0)
          ++ hexEncode (cbcEncrypt (fun b => b) (List.replicate 16 0)
            (pkcs7pad [104, 105]))))
    ∧ (hexEncode (List.replicate 16 0)).length = 32
    ∧ base64Decode (base64Encode (hexEncode (List.replicate 16 0)
        ++ hexEncode (cbcEncrypt (fun b => b) (List.replicate 16 0)
          (pkcs7pad [104, 105]))))
      = some (hexEncode (List.replicate 16 0)
        ++ hexEncode (cbcEncrypt (fun b => b) (List.replicate 16 0)
          (pkcs7pad [104, 105])))
    ∧ hexDecode ((hexEncode (List.replicate 16 0)
        ++ hexEncode (cbcEncrypt (fun b => b) (List.replicate 16 0)
          (pkcs7pad [104, 105]))).take 32) = some (List.replicate 16 0)
    ∧ hexDecode ((hexEncode (List.replicate 16 0)
        ++ hexEncode (cbcEncrypt (fun b => b) (List.replicate 16 0)
          (pkcs7pad [104, 105]))).drop 32)
      = some (cbcEncrypt (fun b => b) (List.replicate 16 0) (pkcs7pad [104, 105]))
    ∧ (cbcEncrypt (fun b => b) (List.replicate 16 0) (pkcs7pad [104, 105])).length % 16
      = 0 :=
  encrypt_envelope_format ⟨fun b => b, fun b => b⟩ [104, 105]
    (List.replicate 32 0) (List.replicate 16 0)
    (by decide) (by decide) (by decide) (by decide)
    (fun b h => h) (fun b _ h => h)

/-- C1: decrypting the envelope produced by encrypting any plaintext under
any 32-byte key returns exactly the plaintext, for any 16-byte IV the
encryption draws. The AES-256 instance is abstract (`bc`); its defining
properties — 16-byte blocks map to 16-byte blocks, bytes stay bytes and
decryption inverts encryption — are the hypotheses. -/
theorem encrypt_decrypt_roundtrip :
    ∀ (bc : BlockCipher) (p key iv env : List Nat),
      key.length = 32 → iv.length = 16 → (∀ x ∈ iv, x < 256) → (∀ x ∈ p, x < 256) →
      (∀ b : List Nat, b.length = 16 → (bc.enc b).length = 16) →
      (∀ b : List Nat, b.length = 16 → (∀ x ∈ b, x < 256) → ∀ x ∈ bc.enc b, x < 256) →
      (∀ b : List Nat, b.length = 16 → bc.dec (bc.enc b) = b) →
      Encrypt bc p key iv = .ok env →
      Decrypt bc env key = .ok p := by
  intro bc p key iv env hk hiv hivb hpb hlen hbound hinv henc
  rw [Encrypt, if_neg (by simp [hk])] at henc
  injection henc with henc
  subst henc
  obtain ⟨n, hn⟩ : ∃ n, (pkcs7pad p).length = 16 * n :=
    ⟨(pkcs7pad p).length / 16, by have := pkcs7pad_length_mod p; omega⟩
  have hctlen : (cbcEncrypt bc.enc iv (pkcs7pad p)).length = 16 * n :=
    cbcEncrypt_length bc.enc hlen n (pkcs7pad p) iv hiv hn
  have hctb : ∀ x ∈ cbcEncrypt bc.enc iv (pkcs7pad p), x < 256 :=
    cbcEncrypt_bytes_lt bc.enc hlen hbound n (pkcs7pad p) iv hiv hivb hn
      (pkcs7pad_bytes_lt p hpb)
  have hlen_iv : (hexEncode iv).length = 32 := by
    rw [hexEncode_length, hiv]
  have hcomb : ∀ c ∈ hexEncode iv ++ hexEncode (cbcEncrypt bc.enc iv (pkcs7pad p)),
      c < 256 := by
    intro c hc
    rcases List.mem_append.mp hc with hc | hc
    · exact hexEncode_chars_lt iv hivb c hc
    · exact hexEncode_chars_lt _ hctb c hc
  have hb64 := base64Decode_base64Encode _ hcomb
  have hnotshort : ¬((hexEncode iv
      ++ hexEncode (cbcEncrypt bc.enc iv (pkcs7pad p))).length < 32) := by
    rw [List.length_append, hlen_iv]
    omega
  have htake : (hexEncode iv
      ++ hexEncode (cbcEncrypt bc.enc iv (pkcs7pad p))).take 32 = hexEncode iv :=
    List.take_left' hlen_iv
  have hdrop : (hexEncode iv
      ++ hexEncode (cbcEncrypt bc.enc iv (pkcs7pad p))).drop 32
      = hexEncode (cbcEncrypt bc.enc iv (pkcs7pad p)) :=
    List.drop_left' hlen_iv
  have hdec_iv := hexDecode_hexEncode iv hivb
  have hdec_ct := hexDecode_hexEncode _ hctb
  have hmodok : ¬((cbcEncrypt bc.enc iv (pkcs7pad p)).length % 16 ≠ 0) := by
    rw [hctlen]
    omega
  have hcbc : cbcDecrypt bc.dec iv (cbcEncrypt bc.enc iv (pkcs7pad p)) = pkcs7pad p :=
    cbcDecrypt_cbcEncrypt bc.enc bc.dec hlen hinv n (pkcs7pad p) iv hiv hn
  have hunpad := pkcs7unpad_pkcs7pad p
  rw [Decrypt, if_neg (by simp [hk]), hb64]
  simp only [hnotshort, if_false, htake, hdrop, hdec_iv, hdec_ct, hiv, hmodok,
    ite_false, hcbc, hunpad, ne_eq, not_true_eq_false, not_false_eq_true]

/-- Witness for C1: a concrete two-byte plaintext round-trips through
`Encrypt` then `Decrypt` with the identity block cipher, an all-zero
32-byte key and an all-zero 16-byte IV. -/
theorem encrypt_decrypt_roundtrip_witness :
    Decrypt ⟨fun b => b, fun b => b⟩
        (base64Encode (hexEncode (List.replicate 16 0)
          ++ hexEncode (cbcEncrypt (fun b => b) (List.replicate 16 0)
            (pkcs7pad [104, 105]))))
        (List.replicate 32 0)
      = .ok [104, 105] :=
  encrypt_decrypt_roundtrip ⟨fun b => b, fun b => b⟩ [104, 105]
    (List.replicate 32 0) (List.replicate 16 0)
    (base64Encode (hexEncode (List.replicate 16 0)
      ++ hexEncode (cbcEncrypt (fun b => b) (List.replicate 16 0)
        (pkcs7pad [104, 105]))))
    (by decide) (by decide) (by decide) (by decide)
    (fun b h => h) (fun b _ h => h) (fun b _ => rfl) rfl

end Vaultify
